import Mathlib

/-!
Verification of the matrix-based attractor solver of `parallel_dtptb`
(`solver.py`, `models.py`, `jobstmann.py`).

A numpy matrix is embedded as a dimension together with an entry
function; all matrices the solver receives are square `n × n`.
Python integers and the float entries of `tmpMap` are embedded as `Int`
(the values taken are `-1`, `0` and positive counters, all exact).
The only runtime failure the solver code can produce is a numpy
index error when a worklist entry is out of range, so the embedding
returns `Except String (List Nat)`; the worklist loop is written with
explicit fuel, and termination (the fuel never running out on square
inputs with declared targets) is proved below.
-/

structure NpMatrix where
  n : Nat
  entry : Nat → Nat → Nat

/-- `graph.T` as passed by the caller in `jobstmann.py`. -/
def transpose (m : NpMatrix) : NpMatrix :=
  ⟨m.n, fun a b => m.entry b a⟩

/-- `adj(matrix, row)` from `solver.py`: the columns `col` of `row`
with `matrix[row, col] == 1`, in increasing order. -/
def adj (m : NpMatrix) (row : Nat) : List Nat :=
  (List.range m.n).filter (fun col => m.entry row col == 1)

/-- `adj(matrix, row)` including numpy's bounds check: reading row
`row` of an `n × n` array raises `IndexError` when `row ≥ n`. -/
def adjE (m : NpMatrix) (row : Nat) : Except String (List Nat) :=
  if row < m.n then Except.ok (adj m row) else Except.error "IndexError"

/-- The `Removed` preprocessing loop of `SWinReacher.solver`: for every
`iter` with `G[iter,iter] == 1 and game.turn(iter) == 2`, every `iter1`
with `G[iter1,iter] == 1 and game.turn(iter) == 2` (the second turn
test repeats the first, as in the source) is appended. -/
def removedList (turn : Nat → Nat) (G : NpMatrix) : List Nat :=
  (List.range G.n).flatMap (fun it =>
    if G.entry it it == 1 && turn it == 2 then
      (List.range G.n).filter (fun it1 => G.entry it1 it == 1 && turn it == 2)
    else [])

/-- The mutable state of the worklist loop: the list `A` and the
counter array `tmpMap`. -/
structure LoopSt where
  A : List Nat
  tmpMap : List Int

/-- The body of `for v0 in adj(T, A[index])` in `SWinReacher.solver`,
for one `v0`.  Note the second `if` is not an `elif` in the source:
it also runs right after the `tmpMap[v0] == -1` branch. -/
def processPred (turn : Nat → Nat) (G : NpMatrix) (Removed : List Nat)
    (i : Nat) (st : LoopSt) (v0 : Nat) : LoopSt :=
  if v0 ∈ Removed then st
  else
    let st1 :=
      if st.tmpMap.getD v0 0 = -1 then
        if turn v0 = i then
          ⟨st.A ++ [v0], st.tmpMap.set v0 0⟩
        else
          let adj_counter : Int :=
            (((adj G v0).filter (fun x => decide (x ∉ Removed))).length : Int) - 1
          if adj_counter = 0 then
            ⟨st.A ++ [v0], st.tmpMap.set v0 adj_counter⟩
          else
            ⟨st.A, st.tmpMap.set v0 adj_counter⟩
      else st
    if turn v0 = 2 ∧ 0 < st1.tmpMap.getD v0 0 then
      let c := st1.tmpMap.getD v0 0 - 1
      if c = 0 then ⟨st1.A ++ [v0], st1.tmpMap.set v0 c⟩
      else ⟨st1.A, st1.tmpMap.set v0 c⟩
    else st1

/-- The `while index < len(A)` loop of `SWinReacher.solver`, with fuel
for the recursion; the fuel passed by `solver` is shown sufficient in
the termination theorem below. -/
def solverLoop (turn : Nat → Nat) (G T : NpMatrix) (Removed : List Nat)
    (i : Nat) : Nat → Nat → LoopSt → Except String (List Nat)
  | 0, index, st =>
    if index < st.A.length then Except.error "Fuel" else Except.ok st.A
  | fuel + 1, index, st =>
    if index < st.A.length then
      match adjE T (st.A.getD index 0) with
      | Except.error e => Except.error e
      | Except.ok preds =>
        solverLoop turn G T Removed i fuel (index + 1)
          (preds.foldl (processPred turn G Removed i) st)
    else Except.ok st.A

/-- `SWinReacher.solver(game, G, T, final, i)`: computes `Removed`,
initializes `A = list(final)` and `tmpMap` (0 on members of `A`,
`-1` elsewhere), then runs the worklist loop. -/
def solver (turn : Nat → Nat) (G T : NpMatrix) (final : List Nat)
    (i : Nat) : Except String (List Nat) :=
  let Removed := removedList turn G
  let A := final
  let tmpMap : List Int :=
    (List.range G.n).map (fun x => if x ∈ A then 0 else -1)
  solverLoop turn G T Removed i (final.length + G.n + 1) 0 ⟨A, tmpMap⟩

/-- `MyGame.matrixBuilder` from `models.py`, restricted to the matrix
`matrix_A` it returns: an `n × n` zero matrix with `A[i][j]` set to 1
for every state `s` and action `a` with `delta(s, a)` defined, where
`i`, `j` are the positions of `s` and `delta(s, a)` in `states` (as in
the source's `dict(zip(states, range(len(states))))`). -/
def matrixBuilder (states : List Nat) (actions : List (Nat × Nat))
    (delta : Nat → Nat × Nat → Option Nat) : NpMatrix :=
  ⟨states.length,
    states.foldl (fun M s =>
      actions.foldl (fun M' a =>
        match delta s a with
        | none => M'
        | some ds =>
          let r := states.indexOf s
          let c := states.indexOf ds
          fun x y => if x = r ∧ y = c then 1 else M' x y) M)
      (fun _ _ => 0)⟩

/-- `JobstmannGame.delta`. -/
def jobDelta (state : Nat) (act : Nat × Nat) : Option Nat :=
  if state = act.1 then some act.2 else none

/-- `JobstmannGame.states()`. -/
def jobStates : List Nat := List.range 4

/-- `JobstmannGame.actions()`. -/
def jobActions : List (Nat × Nat) := [(0, 1), (1, 2), (2, 3)]

/-- `JobstmannGame.turn`. -/
def jobTurn (state : Nat) : Nat := if state ∈ ([2] : List Nat) then 1 else 2

/-- The matrix built for the Jobstmann game (Scenario A). -/
def jobGraph : NpMatrix := matrixBuilder jobStates jobActions jobDelta

/-- Scenario B of the spec: states `{0,1,2,3,4}`, single-action edges
`0→1, 1→2, 1→4, 2→3`, built through the same matrix builder. -/
def scBStates : List Nat := List.range 5

/-- Scenario B action set. -/
def scBActions : List (Nat × Nat) := [(0, 1), (1, 2), (1, 4), (2, 3)]

/-- Scenario B turn function: state 2 owned by player 1, the rest by
player 2. -/
def scBTurn (state : Nat) : Nat := if state = 2 then 1 else 2

/-- Scenario B adjacency matrix. -/
def scBGraph : NpMatrix := matrixBuilder scBStates scBActions jobDelta

/-- The game used for the Removed/target counterexample: two states,
edges `0→1` and a self-loop `1→1`, both states owned by player 2. -/
def loopG : NpMatrix :=
  ⟨2, fun r c => if (r, c) ∈ ([(0, 1), (1, 1)] : List (Nat × Nat)) then 1 else 0⟩

/-- Turn function of the counterexample game: every state owned by
player 2. -/
def loopTurn (_ : Nat) : Nat := 2

def phiCount (tm : List Int) : Nat :=
  ((Finset.range tm.length).filter (fun s => tm.getD s 0 ≠ 0)).card

/-- The loop invariant of the worklist fixpoint: the counters list has
length `n`; every worklist member is a declared state with a zero
counter; the worklist is the target list followed by pairwise-distinct
appended states that are neither targets nor Removed; and every
appended state was appended as a `T`-successor of an earlier worklist
entry. -/
def LoopInv (n : Nat) (final R : List Nat) (T : NpMatrix) (st : LoopSt) : Prop :=
  st.tmpMap.length = n ∧
  (∀ s ∈ st.A, s < n ∧ st.tmpMap.getD s 0 = 0) ∧
  (∃ rest, st.A = final ++ rest ∧ rest.Nodup ∧ ∀ s ∈ rest, s ∉ final ∧ s ∉ R) ∧
  (∀ q, final.length ≤ q → q < st.A.length →
    ∃ p, p < q ∧ T.entry (st.A.getD p 0) (st.A.getD q 0) = 1)

theorem getD_set_same (l : List Int) (j : Nat) (x : Int) (h : j < l.length) :
    (l.set j x).getD j 0 = x := by
  rw [List.getD_eq_getElem?_getD, List.getElem?_set_self (by simpa using h)]
  rfl

theorem getD_set_other (l : List Int) (j k : Nat) (x : Int) (h : j ≠ k) :
    (l.set j x).getD k 0 = l.getD k 0 := by
  rw [List.getD_eq_getElem?_getD, List.getElem?_set_ne h, ← List.getD_eq_getElem?_getD]

theorem lt_length_of_getD_ne (l : List Int) (j : Nat) (h : l.getD j 0 ≠ 0) :
    j < l.length := by
  by_contra hc
  apply h
  rw [List.getD_eq_getElem?_getD, List.getElem?_eq_none (by omega)]
  rfl

theorem getD_mem_of_lt (l : List Nat) (j : Nat) (h : j < l.length) :
    l.getD j 0 ∈ l := by
  rw [List.getD_eq_getElem?_getD, List.getElem?_eq_getElem h]
  exact List.getElem_mem h

theorem phiCount_le (tm' tm : List Int) (hlen : tm'.length = tm.length)
    (h : ∀ s, tm'.getD s 0 ≠ 0 → tm.getD s 0 ≠ 0) : phiCount tm' ≤ phiCount tm := by
  unfold phiCount
  rw [hlen]
  refine Finset.card_le_card (fun s hs => ?_)
  rw [Finset.mem_filter] at hs ⊢
  exact ⟨hs.1, h s hs.2⟩

theorem phiCount_lt (tm' tm : List Int) (hlen : tm'.length = tm.length)
    (h : ∀ s, tm'.getD s 0 ≠ 0 → tm.getD s 0 ≠ 0)
    (j : Nat) (hj : j < tm.length) (hj1 : tm.getD j 0 ≠ 0) (hj2 : tm'.getD j 0 = 0) :
    phiCount tm' < phiCount tm := by
  unfold phiCount
  rw [hlen]
  apply Finset.card_lt_card
  rw [Finset.ssubset_iff_of_subset (fun s hs => by
    rw [Finset.mem_filter] at hs ⊢
    exact ⟨hs.1, h s hs.2⟩)]
  refine ⟨j, ?_, ?_⟩
  · rw [Finset.mem_filter]
    exact ⟨Finset.mem_range.2 hj, hj1⟩
  · rw [Finset.mem_filter]
    push_neg
    intro
    rw [hj2]

theorem phiCount_le_length (tm : List Int) : phiCount tm ≤ tm.length := by
  unfold phiCount
  calc ((Finset.range tm.length).filter (fun s => tm.getD s 0 ≠ 0)).card
      ≤ (Finset.range tm.length).card := Finset.card_filter_le _ _
    _ = tm.length := Finset.card_range _

theorem processPred_step (turn : Nat → Nat) (G : NpMatrix) (R : List Nat)
    (i : Nat) (st : LoopSt) (v0 : Nat) :
    (processPred turn G R i st v0).tmpMap.length = st.tmpMap.length ∧
    (∀ s, s ≠ v0 → (processPred turn G R i st v0).tmpMap.getD s 0 = st.tmpMap.getD s 0) ∧
    (∀ s, (processPred turn G R i st v0).tmpMap.getD s 0 ≠ 0 → st.tmpMap.getD s 0 ≠ 0) ∧
    (st.tmpMap.getD v0 0 = 0 → processPred turn G R i st v0 = st) ∧
    ((processPred turn G R i st v0).A = st.A ∨
      ((processPred turn G R i st v0).A = st.A ++ [v0] ∧ v0 ∉ R ∧
       st.tmpMap.getD v0 0 ≠ 0 ∧ (processPred turn G R i st v0).tmpMap.getD v0 0 = 0)) := by
  by_cases hR : v0 ∈ R
  · have hpp : processPred turn G R i st v0 = st := by
      simp only [processPred, if_pos hR]
    rw [hpp]
    exact ⟨rfl, fun _ _ => rfl, fun _ h => h, fun _ => rfl, Or.inl rfl⟩
  · by_cases h1 : st.tmpMap.getD v0 0 = -1
    · have hne : st.tmpMap.getD v0 0 ≠ 0 := by rw [h1]; decide
      have hlt : v0 < st.tmpMap.length := lt_length_of_getD_ne _ _ hne
      by_cases h2 : turn v0 = i
      · -- fresh, attracting player: append, set 0; second if inert
        have hget : (st.tmpMap.set v0 0).getD v0 0 = 0 := getD_set_same _ _ _ hlt
        have hpp : processPred turn G R i st v0 = ⟨st.A ++ [v0], st.tmpMap.set v0 0⟩ := by
          simp only [processPred, if_neg hR, if_pos h1, if_pos h2, hget]
          rw [if_neg (fun hc => absurd hc.2 (lt_irrefl 0))]
        rw [hpp]
        refine ⟨by simp, fun s hs => getD_set_other _ _ _ _ (Ne.symm hs), ?_,
          fun h0 => absurd h0 hne, Or.inr ⟨rfl, hR, hne, hget⟩⟩
        intro s hs
        by_cases hsv : s = v0
        · subst hsv
          exact absurd hget hs
        · rw [getD_set_other _ _ _ _ (Ne.symm hsv)] at hs
          exact hs
      · -- fresh, opponent: counter branch
        by_cases h3 :
            (((adj G v0).filter (fun x => decide (x ∉ R))).length : Int) - 1 = 0
        · have hget : (st.tmpMap.set v0
              ((((adj G v0).filter (fun x => decide (x ∉ R))).length : Int) - 1)).getD v0 0
              = 0 := by
            rw [getD_set_same _ _ _ hlt, h3]
          have hpp : processPred turn G R i st v0 =
              ⟨st.A ++ [v0], st.tmpMap.set v0
                ((((adj G v0).filter (fun x => decide (x ∉ R))).length : Int) - 1)⟩ := by
            simp only [processPred, if_neg hR, if_pos h1, if_neg h2, if_pos h3, hget]
            rw [if_neg (fun hc => absurd hc.2 (lt_irrefl 0))]
          rw [hpp]
          refine ⟨by simp, fun s hs => getD_set_other _ _ _ _ (Ne.symm hs), ?_,
            fun h0 => absurd h0 hne, Or.inr ⟨rfl, hR, hne, hget⟩⟩
          intro s hs
          by_cases hsv : s = v0
          · subst hsv
            exact absurd hget hs
          · rw [getD_set_other _ _ _ _ (Ne.symm hsv)] at hs
            exact hs
        · have hget : (st.tmpMap.set v0
              ((((adj G v0).filter (fun x => decide (x ∉ R))).length : Int) - 1)).getD v0 0
              = (((adj G v0).filter (fun x => decide (x ∉ R))).length : Int) - 1 :=
            getD_set_same _ _ _ hlt
          by_cases h4 : turn v0 = 2 ∧
              0 < (((adj G v0).filter (fun x => decide (x ∉ R))).length : Int) - 1
          · by_cases h5 :
                (((adj G v0).filter (fun x => decide (x ∉ R))).length : Int) - 1 - 1 = 0
            · have hget2 : ((st.tmpMap.set v0
                  ((((adj G v0).filter (fun x => decide (x ∉ R))).length : Int) - 1)).set v0
                  ((((adj G v0).filter (fun x => decide (x ∉ R))).length : Int) - 1 - 1)).getD
                  v0 0 = 0 := by
                rw [getD_set_same _ _ _ (by simpa using hlt), h5]
              have hpp : processPred turn G R i st v0 =
                  ⟨st.A ++ [v0], (st.tmpMap.set v0
                    ((((adj G v0).filter (fun x => decide (x ∉ R))).length : Int) - 1)).set v0
                    ((((adj G v0).filter (fun x => decide (x ∉ R))).length : Int) - 1 - 1)⟩ := by
                simp only [processPred, if_neg hR, if_pos h1, if_neg h2, if_neg h3, hget,
                  if_pos h4, if_pos h5]
              rw [hpp]
              refine ⟨by simp, fun s hs => by
                  rw [getD_set_other _ _ _ _ (Ne.symm hs), getD_set_other _ _ _ _ (Ne.symm hs)],
                ?_, fun h0 => absurd h0 hne, Or.inr ⟨rfl, hR, hne, hget2⟩⟩
              intro s hs
              by_cases hsv : s = v0
              · subst hsv
                exact absurd hget2 hs
              · rw [getD_set_other _ _ _ _ (Ne.symm hsv),
                  getD_set_other _ _ _ _ (Ne.symm hsv)] at hs
                exact hs
            · have hpp : processPred turn G R i st v0 =
                  ⟨st.A, (st.tmpMap.set v0
                    ((((adj G v0).filter (fun x => decide (x ∉ R))).length : Int) - 1)).set v0
                    ((((adj G v0).filter (fun x => decide (x ∉ R))).length : Int) - 1 - 1)⟩ := by
                simp only [processPred, if_neg hR, if_pos h1, if_neg h2, if_neg h3, hget,
                  if_pos h4, if_neg h5]
              rw [hpp]
              refine ⟨by simp, fun s hs => by
                  rw [getD_set_other _ _ _ _ (Ne.symm hs), getD_set_other _ _ _ _ (Ne.symm hs)],
                ?_, fun h0 => absurd h0 hne, Or.inl rfl⟩
              intro s hs
              by_cases hsv : s = v0
              · subst hsv
                exact hne
              · rw [getD_set_other _ _ _ _ (Ne.symm hsv),
                  getD_set_other _ _ _ _ (Ne.symm hsv)] at hs
                exact hs
          · have hpp : processPred turn G R i st v0 =
                ⟨st.A, st.tmpMap.set v0
                  ((((adj G v0).filter (fun x => decide (x ∉ R))).length : Int) - 1)⟩ := by
              simp only [processPred, if_neg hR, if_pos h1, if_neg h2, if_neg h3, hget,
                if_neg h4]
            rw [hpp]
            refine ⟨by simp, fun s hs => getD_set_other _ _ _ _ (Ne.symm hs), ?_,
              fun h0 => absurd h0 hne, Or.inl rfl⟩
            intro s hs
            by_cases hsv : s = v0
            · subst hsv
              exact hne
            · rw [getD_set_other _ _ _ _ (Ne.symm hsv)] at hs
              exact hs
    · -- not fresh
      by_cases h4 : turn v0 = 2 ∧ 0 < st.tmpMap.getD v0 0
      · have hne : st.tmpMap.getD v0 0 ≠ 0 := ne_of_gt h4.2
        have hlt : v0 < st.tmpMap.length := lt_length_of_getD_ne _ _ hne
        by_cases h5 : st.tmpMap.getD v0 0 - 1 = 0
        · have hget : (st.tmpMap.set v0 (st.tmpMap.getD v0 0 - 1)).getD v0 0 = 0 := by
            rw [getD_set_same _ _ _ hlt, h5]
          have hpp : processPred turn G R i st v0 =
              ⟨st.A ++ [v0], st.tmpMap.set v0 (st.tmpMap.getD v0 0 - 1)⟩ := by
            simp only [processPred, if_neg hR, if_neg h1, if_pos h4, if_pos h5]
          rw [hpp]
          refine ⟨by simp, fun s hs => getD_set_other _ _ _ _ (Ne.symm hs), ?_,
            fun h0 => absurd (h0 ▸ h4.2) (lt_irrefl 0), Or.inr ⟨rfl, hR, hne, hget⟩⟩
          intro s hs
          by_cases hsv : s = v0
          · subst hsv
            exact hne
          · rw [getD_set_other _ _ _ _ (Ne.symm hsv)] at hs
            exact hs
        · have hpp : processPred turn G R i st v0 =
              ⟨st.A, st.tmpMap.set v0 (st.tmpMap.getD v0 0 - 1)⟩ := by
            simp only [processPred, if_neg hR, if_neg h1, if_pos h4, if_neg h5]
          rw [hpp]
          refine ⟨by simp, fun s hs => getD_set_other _ _ _ _ (Ne.symm hs), ?_,
            fun h0 => absurd (h0 ▸ h4.2) (lt_irrefl 0), Or.inl rfl⟩
          intro s hs
          by_cases hsv : s = v0
          · subst hsv
            exact hne
          · rw [getD_set_other _ _ _ _ (Ne.symm hsv)] at hs
            exact hs
      · have hpp : processPred turn G R i st v0 = st := by
          simp only [processPred, if_neg hR, if_neg h1, if_neg h4]
        rw [hpp]
        exact ⟨rfl, fun _ _ => rfl, fun _ h => h, fun _ => rfl, Or.inl rfl⟩

theorem getD_append_left (l l2 : List Nat) (p : Nat) (h : p < l.length) :
    (l ++ l2).getD p 0 = l.getD p 0 := by
  rw [List.getD_eq_getElem?_getD, List.getElem?_append_left h, ← List.getD_eq_getElem?_getD]

theorem getD_concat_length (l : List Nat) (x : Nat) :
    (l ++ [x]).getD l.length 0 = x := by
  rw [List.getD_eq_getElem?_getD, List.getElem?_concat_length]
  rfl

theorem processPred_inv (n : Nat) (final R : List Nat) (T : NpMatrix)
    (turn : Nat → Nat) (G : NpMatrix) (i : Nat)
    (st : LoopSt) (v0 : Nat) (hv0n : v0 < n)
    (hedge : ∃ p, p < st.A.length ∧ T.entry (st.A.getD p 0) v0 = 1)
    (hInv : LoopInv n final R T st) :
    LoopInv n final R T (processPred turn G R i st v0) ∧
    (∃ ext, (processPred turn G R i st v0).A = st.A ++ ext) ∧
    (processPred turn G R i st v0).A.length + phiCount (processPred turn G R i st v0).tmpMap ≤
      st.A.length + phiCount st.tmpMap := by
  obtain ⟨hlen, hmem, ⟨rest, hdecomp, hnd, hrest⟩, hedges⟩ := hInv
  obtain ⟨hslen, hsother, hsnz, hszero, hsA⟩ := processPred_step turn G R i st v0
  have zstable : ∀ s, st.tmpMap.getD s 0 = 0 →
      (processPred turn G R i st v0).tmpMap.getD s 0 = 0 := by
    intro s h0
    by_cases hsv : s = v0
    · subst hsv
      rw [hszero h0]
      exact h0
    · rw [hsother s hsv]
      exact h0
  rcases hsA with hAeq | ⟨hAeq, hRv, hpre, hpost⟩
  · refine ⟨⟨hslen.trans hlen, ?_, ?_, ?_⟩, ⟨[], by rw [hAeq, List.append_nil]⟩, ?_⟩
    · intro s hs
      rw [hAeq] at hs
      exact ⟨(hmem s hs).1, zstable s (hmem s hs).2⟩
    · exact ⟨rest, by rw [hAeq]; exact hdecomp, hnd, hrest⟩
    · intro q hq1 hq2
      rw [hAeq] at hq2 ⊢
      exact hedges q hq1 hq2
    · rw [hAeq]
      have := phiCount_le _ _ (hslen.trans hlen |>.trans hlen.symm) hsnz
      omega
  · have hv0A : v0 ∉ st.A := fun hin => hpre (hmem v0 hin).2
    have hv0lt : v0 < st.tmpMap.length := lt_length_of_getD_ne _ _ hpre
    refine ⟨⟨hslen.trans hlen, ?_, ?_, ?_⟩, ⟨[v0], hAeq⟩, ?_⟩
    · intro s hs
      rw [hAeq, List.mem_append] at hs
      rcases hs with hs | hs
      · exact ⟨(hmem s hs).1, zstable s (hmem s hs).2⟩
      · rw [List.mem_singleton] at hs
        subst hs
        exact ⟨hv0n, hpost⟩
    · refine ⟨rest ++ [v0], by rw [hAeq, hdecomp, List.append_assoc], ?_, ?_⟩
      · rw [List.nodup_append]
        refine ⟨hnd, List.nodup_singleton v0, ?_⟩
        intro a ha hb
        rw [List.mem_singleton] at hb
        subst hb
        exact hv0A (by rw [hdecomp, List.mem_append]; exact Or.inr ha)
      · intro s hs
        rw [List.mem_append, List.mem_singleton] at hs
        rcases hs with hs | hs
        · exact hrest s hs
        · subst hs
          exact ⟨fun hf => hv0A (by rw [hdecomp, List.mem_append]; exact Or.inl hf), hRv⟩
    · intro q hq1 hq2
      rw [hAeq] at hq2
      rw [List.length_append, List.length_singleton] at hq2
      by_cases hqlt : q < st.A.length
      · obtain ⟨p, hp1, hp2⟩ := hedges q hq1 hqlt
        refine ⟨p, hp1, ?_⟩
        rw [hAeq, getD_append_left _ _ _ (hp1.trans hqlt), getD_append_left _ _ _ hqlt]
        exact hp2
      · have hqeq : q = st.A.length := by omega
        obtain ⟨p, hp1, hp2⟩ := hedge
        refine ⟨p, by omega, ?_⟩
        rw [hAeq, hqeq, getD_concat_length, getD_append_left _ _ _ hp1]
        exact hp2
    · rw [hAeq, List.length_append, List.length_singleton]
      have := phiCount_lt _ _ (hslen.trans hlen |>.trans hlen.symm) hsnz v0 hv0lt hpre hpost
      omega

theorem mem_adj (m : NpMatrix) (row col : Nat) :
    col ∈ adj m row ↔ col < m.n ∧ m.entry row col = 1 := by
  simp [adj, List.mem_filter, List.mem_range]

theorem foldl_processPred_inv (n : Nat) (final R : List Nat) (T : NpMatrix)
    (turn : Nat → Nat) (G : NpMatrix) (i : Nat) (base : List Nat)
    (l : List Nat) (st : LoopSt)
    (hl : ∀ v0 ∈ l, v0 < n ∧ ∃ p, p < base.length ∧ T.entry (base.getD p 0) v0 = 1)
    (hbase : ∃ ext, st.A = base ++ ext)
    (hInv : LoopInv n final R T st) :
    LoopInv n final R T (l.foldl (processPred turn G R i) st) ∧
    (∃ ext, (l.foldl (processPred turn G R i) st).A = base ++ ext) ∧
    (l.foldl (processPred turn G R i) st).A.length +
        phiCount (l.foldl (processPred turn G R i) st).tmpMap ≤
      st.A.length + phiCount st.tmpMap := by
  induction l generalizing st with
  | nil => exact ⟨hInv, hbase, le_refl _⟩
  | cons v0 tl ih =>
    have hv0 := hl v0 (List.mem_cons_self v0 tl)
    obtain ⟨ext, hext⟩ := hbase
    obtain ⟨p, hp, he⟩ := hv0.2
    have hedge : ∃ p', p' < st.A.length ∧ T.entry (st.A.getD p' 0) v0 = 1 := by
      refine ⟨p, ?_, ?_⟩
      · rw [hext, List.length_append]
        omega
      · rw [hext, getD_append_left _ _ _ hp]
        exact he
    obtain ⟨hInv', hext', hphi'⟩ :=
      processPred_inv n final R T turn G i st v0 hv0.1 hedge hInv
    have hbase' : ∃ e2, (processPred turn G R i st v0).A = base ++ e2 := by
      obtain ⟨e1, he1⟩ := hext'
      exact ⟨ext ++ e1, by rw [he1, hext, List.append_assoc]⟩
    obtain ⟨h1, h2, h3⟩ :=
      ih (processPred turn G R i st v0) (fun w hw => hl w (List.mem_cons_of_mem _ hw))
        hbase' hInv'
    refine ⟨h1, h2, ?_⟩
    rw [List.foldl_cons]
    omega

theorem solverLoop_stop (turn : Nat → Nat) (G T : NpMatrix) (R : List Nat)
    (i fuel index : Nat) (st : LoopSt) (h : ¬ index < st.A.length) :
    solverLoop turn G T R i fuel index st = Except.ok st.A := by
  cases fuel with
  | zero =>
    have he : solverLoop turn G T R i 0 index st =
        (if index < st.A.length then Except.error "Fuel" else Except.ok st.A) := rfl
    rw [he, if_neg h]
  | succ f =>
    have he : solverLoop turn G T R i (f + 1) index st =
        (if index < st.A.length then
          match adjE T (st.A.getD index 0) with
          | Except.error e => Except.error e
          | Except.ok preds =>
            solverLoop turn G T R i f (index + 1)
              (preds.foldl (processPred turn G R i) st)
        else Except.ok st.A) := rfl
    rw [he, if_neg h]

theorem solverLoop_go (turn : Nat → Nat) (G T : NpMatrix) (R : List Nat)
    (i fuel index : Nat) (st : LoopSt) (h : index < st.A.length)
    (preds : List Nat) (hadj : adjE T (st.A.getD index 0) = Except.ok preds) :
    solverLoop turn G T R i (fuel + 1) index st =
      solverLoop turn G T R i fuel (index + 1)
        (preds.foldl (processPred turn G R i) st) := by
  have he : solverLoop turn G T R i (fuel + 1) index st =
      (if index < st.A.length then
        match adjE T (st.A.getD index 0) with
        | Except.error e => Except.error e
        | Except.ok preds' =>
          solverLoop turn G T R i fuel (index + 1)
            (preds'.foldl (processPred turn G R i) st)
      else Except.ok st.A) := rfl
  rw [he, if_pos h, hadj]

theorem solverLoop_ok (n : Nat) (final R : List Nat) (turn : Nat → Nat)
    (G T : NpMatrix) (i : Nat) (hTn : T.n = n) (fuel : Nat) :
    ∀ (index : Nat) (st : LoopSt), LoopInv n final R T st →
      index ≤ st.A.length →
      st.A.length + phiCount st.tmpMap < fuel + index →
      ∃ stf : LoopSt, solverLoop turn G T R i fuel index st = Except.ok stf.A ∧
        LoopInv n final R T stf ∧ ∃ ext, stf.A = st.A ++ ext := by
  induction fuel with
  | zero =>
    intro index st hInv hidx hfuel
    exact absurd hfuel (by omega)
  | succ fuel ih =>
    intro index st hInv hidx hfuel
    by_cases hlt : index < st.A.length
    · have hvA : st.A.getD index 0 ∈ st.A := getD_mem_of_lt _ _ hlt
      have hvn : st.A.getD index 0 < n := (hInv.2.1 _ hvA).1
      have hadj : adjE T (st.A.getD index 0) =
          Except.ok (adj T (st.A.getD index 0)) := by
        rw [adjE, if_pos (by rw [hTn]; exact hvn)]
      rw [solverLoop_go turn G T R i fuel index st hlt _ hadj]
      have hl : ∀ w ∈ adj T (st.A.getD index 0),
          w < n ∧ ∃ p, p < st.A.length ∧ T.entry (st.A.getD p 0) w = 1 := by
        intro w hw
        rw [mem_adj] at hw
        exact ⟨hTn ▸ hw.1, index, hlt, hw.2⟩
      obtain ⟨hInv', hext', hphi'⟩ :=
        foldl_processPred_inv n final R T turn G i st.A
          (adj T (st.A.getD index 0)) st hl ⟨[], (List.append_nil _).symm⟩ hInv
      obtain ⟨e1, he1⟩ := hext'
      obtain ⟨stf, hrun, hInvf, e2, he2⟩ :=
        ih (index + 1)
          ((adj T (st.A.getD index 0)).foldl (processPred turn G R i) st)
          hInv' (by rw [he1, List.length_append]; omega) (by omega)
      exact ⟨stf, hrun, hInvf, e1 ++ e2, by rw [he2, he1, List.append_assoc]⟩
    · rw [solverLoop_stop turn G T R i (fuel + 1) index st hlt]
      exact ⟨st, rfl, hInv, [], (List.append_nil _).symm⟩

theorem getD_initMap (n s : Nat) (final : List Nat) (h : s < n) :
    ((List.range n).map (fun x => if x ∈ final then (0 : Int) else -1)).getD s 0 =
      (if s ∈ final then 0 else -1) := by
  rw [List.getD_eq_getElem?_getD, List.getElem?_map, List.getElem?_range h]
  rfl

theorem solver_main (turn : Nat → Nat) (G T : NpMatrix) (final : List Nat)
    (i : Nat) (hTn : T.n = G.n) (hF : ∀ s ∈ final, s < G.n) :
    ∃ Q, solver turn G T final i = Except.ok Q ∧
      (∃ rest, Q = final ++ rest ∧ rest.Nodup ∧
        ∀ s ∈ rest, s ∉ final ∧ s ∉ removedList turn G ∧ s < G.n) ∧
      (∀ q, final.length ≤ q → q < Q.length →
        ∃ p, p < q ∧ T.entry (Q.getD p 0) (Q.getD q 0) = 1) := by
  have hsolver : solver turn G T final i =
      solverLoop turn G T (removedList turn G) i (final.length + G.n + 1) 0
        ⟨final, (List.range G.n).map (fun x => if x ∈ final then 0 else -1)⟩ := rfl
  have hInv0 : LoopInv G.n final (removedList turn G) T
      ⟨final, (List.range G.n).map (fun x => if x ∈ final then 0 else -1)⟩ := by
    refine ⟨by simp, ?_, ⟨[], (List.append_nil _).symm, List.nodup_nil, by simp⟩, ?_⟩
    · intro s hs
      refine ⟨hF s hs, ?_⟩
      rw [getD_initMap _ _ _ (hF s hs), if_pos hs]
    · intro q hq1 hq2
      simp only [List.length_append] at hq2
      omega
  have hphi0 : phiCount ((List.range G.n).map
      (fun x => if x ∈ final then (0 : Int) else -1)) ≤ G.n := by
    have := phiCount_le_length ((List.range G.n).map
      (fun x => if x ∈ final then (0 : Int) else -1))
    simpa using this
  obtain ⟨stf, hrun, hInvf, ext, hext⟩ :=
    solverLoop_ok G.n final (removedList turn G) turn G T i hTn
      (final.length + G.n + 1) 0
      ⟨final, (List.range G.n).map (fun x => if x ∈ final then 0 else -1)⟩
      hInv0 (Nat.zero_le _) (by simp only [List.length_map, List.length_range]; omega)
  obtain ⟨hlenf, hmemf, ⟨rest, hd, hnd, hprops⟩, hedges⟩ := hInvf
  refine ⟨stf.A, by rw [hsolver, hrun], ⟨rest, hd, hnd, ?_⟩, hedges⟩
  intro s hs
  have hsA : s ∈ stf.A := by
    rw [hd, List.mem_append]
    exact Or.inr hs
  exact ⟨(hprops s hs).1, (hprops s hs).2, (hmemf s hsA).1⟩

theorem getD_append_right_pos (l l2 : List Nat) (j : Nat) (_h : j < l2.length) :
    (l ++ l2).getD (l.length + j) 0 = l2.getD j 0 := by
  rw [List.getD_eq_getElem?_getD, List.getElem?_append_right (by omega),
    Nat.add_sub_cancel_left, ← List.getD_eq_getElem?_getD]

theorem getD_of_getElem (l : List Nat) (j : Nat) (h : j < l.length) :
    l.getD j 0 = l[j] := by
  rw [List.getD_eq_getElem?_getD, List.getElem?_eq_getElem h]
  rfl

theorem appended_has_edge (turn : Nat → Nat) (G : NpMatrix) (final : List Nat)
    (i : Nat) (Q : List Nat) (s : Nat) (hF : ∀ t ∈ final, t < G.n)
    (hok : solver turn G (transpose G) final i = Except.ok Q)
    (hsQ : s ∈ Q) (hnf : s ∉ final) :
    ∃ p q, p < q ∧ q < Q.length ∧ Q.getD q 0 = s ∧
      G.entry s (Q.getD p 0) = 1 ∧ Q.getD p 0 < G.n := by
  obtain ⟨Q', hok', ⟨rest, hd, hnd, hprops⟩, hedges⟩ :=
    solver_main turn G (transpose G) final i rfl hF
  rw [hok] at hok'
  injection hok' with hQ
  subst hQ
  have hmemn : ∀ x ∈ Q, x < G.n := by
    intro x hx
    rw [hd, List.mem_append] at hx
    rcases hx with hx | hx
    · exact hF x hx
    · exact (hprops x hx).2.2
  have hsrest : s ∈ rest := by
    rw [hd, List.mem_append] at hsQ
    rcases hsQ with h | h
    · exact absurd h hnf
    · exact h
  obtain ⟨j, hj, hrj⟩ := List.mem_iff_getElem.1 hsrest
  have hq2 : final.length + j < Q.length := by
    rw [hd, List.length_append]
    omega
  have hQq : Q.getD (final.length + j) 0 = s := by
    rw [hd, getD_append_right_pos _ _ _ hj, getD_of_getElem _ _ hj, hrj]
  obtain ⟨p, hp1, hp2⟩ := hedges (final.length + j) (by omega) hq2
  refine ⟨p, final.length + j, hp1, hq2, hQq, ?_, ?_⟩
  · have : (transpose G).entry (Q.getD p 0) (Q.getD (final.length + j) 0) = 1 := hp2
    rw [hQq] at this
    exact this
  · exact hmemn _ (getD_mem_of_lt _ _ (by omega))

/-- Claim C1: evaluated on the Scenario B game (states 0–4, edges
0→1, 1→2, 1→4, 2→3, state 2 owned by player 1, target `[3]`,
attracting player 1) the solver returns `[3, 2, 1, 0]`, so states 0
and 1 are in the returned sequence, contradicting the claimed winning
region `{2, 3}`. -/
theorem c1_scenarioB_returns_states_0_and_1 :
    solver scBTurn scBGraph (transpose scBGraph) [3] 1 = Except.ok [3, 2, 1, 0] ∧
    0 ∈ ([3, 2, 1, 0] : List Nat) ∧ 1 ∈ ([3, 2, 1, 0] : List Nat) :=
  ⟨rfl, by decide, by decide⟩

/-- Claim C2: rule (b) soundness fails on the code: in Scenario B the
opponent-owned state 1 is in the returned region although its
non-Removed successor 4 is not. -/
theorem c2_ruleB_violated_at_scenarioB :
    solver scBTurn scBGraph (transpose scBGraph) [3] 1 = Except.ok [3, 2, 1, 0] ∧
    1 ∈ ([3, 2, 1, 0] : List Nat) ∧ scBTurn 1 = 2 ∧
    scBGraph.entry 1 4 = 1 ∧ 4 ∉ removedList scBTurn scBGraph ∧
    4 ∉ ([3, 2, 1, 0] : List Nat) :=
  ⟨rfl, by decide, by decide, by decide, by decide, by decide⟩

/-- Claim C3, counterexample: with the invalid attracting player tag
`i = 3` on the Scenario A game the solver does not fail at all: it
returns the full sequence `[3, 2, 1, 0]`. -/
theorem c3_invalid_player_returns_ok :
    solver jobTurn jobGraph (transpose jobGraph) [3] 3 = Except.ok [3, 2, 1, 0] ∧
    ∀ e, solver jobTurn jobGraph (transpose jobGraph) [3] 3 ≠ Except.error e := by
  have hok : solver jobTurn jobGraph (transpose jobGraph) [3] 3 = Except.ok [3, 2, 1, 0] := rfl
  refine ⟨hok, fun e h => ?_⟩
  rw [hok] at h
  exact Except.noConfusion h

/-- Claim C3, amended: the solver performs no eager validation: with
invalid player `i = 3` it returns a normal result instead of failing
with `InvalidPlayer`, and with the out-of-range target `[5]` it fails
with an index error raised inside the fixpoint loop, not with
`InvalidTarget` before it. -/
theorem c3_no_eager_validation :
    solver jobTurn jobGraph (transpose jobGraph) [3] 3 = Except.ok [3, 2, 1, 0] ∧
    solver jobTurn jobGraph (transpose jobGraph) [5] 1 = Except.error "IndexError" :=
  ⟨rfl, rfl⟩

/-- Claim C4, counterexample: in the two-state game with edges `0→1`
and the self-loop `1→1`, all states player-2-owned, state 1 is in the
Removed set, yet with target `[1]` the solver returns `[1]`: the
Removed state 1 appears in the attractor record. -/
theorem c4_removed_target_in_result :
    1 ∈ removedList loopTurn loopG ∧
    solver loopTurn loopG (transpose loopG) [1] 1 = Except.ok [1] ∧
    1 ∈ ([1] : List Nat) :=
  ⟨by decide, rfl, by decide⟩

/-- Claim C5: Scenario A: on the Jobstmann game (states 0–3, edges
0→1, 1→2, 2→3, state 2 owned by player 1, target `[3]`, attracting
player 1) the solver returns `[3, 2, 1, 0]`, which as a set is
`{0, 1, 2, 3}`. -/
theorem c5_scenarioA_full_region :
    solver jobTurn jobGraph (transpose jobGraph) [3] 1 = Except.ok [3, 2, 1, 0] ∧
    ([3, 2, 1, 0] : List Nat).Perm [0, 1, 2, 3] :=
  ⟨rfl, by decide⟩

/-- Claim C7, counterexample: in Scenario A state 0 has no incoming
edges and is not in the target `[3]`, yet it is in the returned
winning region. -/
theorem c7_no_incoming_state_added :
    (∀ j, j < jobGraph.n → jobGraph.entry j 0 ≠ 1) ∧
    0 ∉ ([3] : List Nat) ∧
    solver jobTurn jobGraph (transpose jobGraph) [3] 1 = Except.ok [3, 2, 1, 0] ∧
    0 ∈ ([3, 2, 1, 0] : List Nat) :=
  ⟨by decide, by decide, rfl, by decide⟩

/-- Claim C8: a state `v1` is in the Removed list iff some state `v`
has a self-loop `G[v][v] = 1`, is owned by player 2, and receives an
edge `G[v1][v] = 1`; Removed is triggered only by direct self-loops. -/
theorem c8_removed_characterization (turn : Nat → Nat) (G : NpMatrix) (v1 : Nat) :
    v1 ∈ removedList turn G ↔
      ∃ v, v < G.n ∧ v1 < G.n ∧ G.entry v v = 1 ∧ turn v = 2 ∧ G.entry v1 v = 1 := by
  simp only [removedList, List.mem_flatMap, List.mem_range]
  constructor
  · rintro ⟨v, hv, hmem⟩
    by_cases hc : (G.entry v v == 1 && turn v == 2) = true
    · rw [if_pos hc] at hmem
      rw [List.mem_filter, List.mem_range] at hmem
      simp only [Bool.and_eq_true, beq_iff_eq] at hc hmem
      exact ⟨v, hv, hmem.1, hc.1, hc.2, hmem.2.1⟩
    · rw [if_neg hc] at hmem
      exact absurd hmem (List.not_mem_nil v1)
  · rintro ⟨v, hv, hv1, hself, hturn, hedge⟩
    refine ⟨v, hv, ?_⟩
    rw [if_pos (by simp [hself, hturn])]
    rw [List.mem_filter, List.mem_range]
    simp [hv1, hedge, hturn]

/-- Claim C4, amended: no Removed state is ever appended during the
fixpoint: when the solver succeeds on a target of declared states, the
returned sequence is the target list followed by appended states none
of which is Removed; a Removed state can appear only as one of the
initial target entries. -/
theorem c4_no_removed_appended (turn : Nat → Nat) (G T : NpMatrix)
    (final : List Nat) (i : Nat) (Q : List Nat)
    (hTn : T.n = G.n) (hF : ∀ s ∈ final, s < G.n)
    (hok : solver turn G T final i = Except.ok Q) :
    ∃ rest, Q = final ++ rest ∧ ∀ s ∈ rest, s ∉ removedList turn G := by
  obtain ⟨Q', hok', ⟨rest, hd, _, hprops⟩, _⟩ := solver_main turn G T final i hTn hF
  rw [hok] at hok'
  injection hok' with hQ
  subst hQ
  exact ⟨rest, hd, fun s hs => (hprops s hs).2.1⟩

/-- Witness for C4 at the two-state self-loop game: the hypotheses hold
and the appended part of the result `[1]` is empty, so contains no
Removed state. -/
theorem c4_no_removed_appended_witness :
    (∀ s ∈ ([1] : List Nat), s < loopG.n) ∧
    ∃ rest, ([1] : List Nat) = [1] ++ rest ∧
      ∀ s ∈ rest, s ∉ removedList loopTurn loopG :=
  ⟨by decide,
    c4_no_removed_appended loopTurn loopG (transpose loopG) [1] 1 [1] rfl
      (by decide) rfl⟩

/-- Claim C6: target inclusion: for every game, square predecessor
matrix of matching dimension, player tag and target list of declared
states, the solver succeeds and every target state is a member of the
returned sequence. -/
theorem c6_target_inclusion (turn : Nat → Nat) (G T : NpMatrix)
    (final : List Nat) (i : Nat) (hTn : T.n = G.n)
    (hF : ∀ s ∈ final, s < G.n) :
    ∃ Q, solver turn G T final i = Except.ok Q ∧ ∀ s ∈ final, s ∈ Q := by
  obtain ⟨Q, hok, ⟨rest, hd, _, _⟩, _⟩ := solver_main turn G T final i hTn hF
  refine ⟨Q, hok, fun s hs => ?_⟩
  rw [hd, List.mem_append]
  exact Or.inl hs

/-- Witness for C6 at the Jobstmann game. -/
theorem c6_target_inclusion_witness :
    (∀ s ∈ ([3] : List Nat), s < jobGraph.n) ∧
    ∃ Q, solver jobTurn jobGraph (transpose jobGraph) [3] 1 = Except.ok Q ∧
      ∀ s ∈ ([3] : List Nat), s ∈ Q :=
  ⟨by decide,
    c6_target_inclusion jobTurn jobGraph (transpose jobGraph) [3] 1 rfl (by decide)⟩

/-- Claim C7, amended: a state with no outgoing edges in `G` (rather
than no incoming edges, which the counterexample refutes) that is not
in the target list is never in the returned winning region. -/
theorem c7_no_outgoing_never_added (turn : Nat → Nat) (G : NpMatrix)
    (final : List Nat) (i : Nat) (Q : List Nat) (s : Nat)
    (hF : ∀ t ∈ final, t < G.n)
    (hok : solver turn G (transpose G) final i = Except.ok Q)
    (hnoout : ∀ t, t < G.n → G.entry s t ≠ 1)
    (hnf : s ∉ final) : s ∉ Q := by
  intro hsQ
  obtain ⟨p, q, _, _, _, hedge, hbound⟩ :=
    appended_has_edge turn G final i Q s hF hok hsQ hnf
  exact hnoout _ hbound hedge

/-- Witness for C7 at the Scenario B game: state 4 has no outgoing
edges, is not a target, and is not in the returned region. -/
theorem c7_no_outgoing_never_added_witness :
    (∀ t ∈ ([3] : List Nat), t < scBGraph.n) ∧
    (∀ t, t < scBGraph.n → scBGraph.entry 4 t ≠ 1) ∧
    4 ∉ ([3] : List Nat) ∧ 4 ∉ ([3, 2, 1, 0] : List Nat) :=
  ⟨by decide, by decide, by decide,
    c7_no_outgoing_never_added scBTurn scBGraph [3] 1 [3, 2, 1, 0] 4
      (by decide) rfl (by decide) (by decide)⟩

/-- Claim C9: termination: for every square matrices `G`, `T` of equal
dimension and target list of declared states, the worklist loop
terminates with a result; the worklist only grows (the target list is
an initial segment of the result) and no state is appended more than
once. -/
theorem c9_termination (turn : Nat → Nat) (G T : NpMatrix) (final : List Nat)
    (i : Nat) (hTn : T.n = G.n) (hF : ∀ s ∈ final, s < G.n) :
    ∃ Q rest, solver turn G T final i = Except.ok Q ∧ Q = final ++ rest ∧
      rest.Nodup ∧ ∀ s ∈ rest, s ∉ final := by
  obtain ⟨Q, hok, ⟨rest, hd, hnd, hprops⟩, _⟩ := solver_main turn G T final i hTn hF
  exact ⟨Q, rest, hok, hd, hnd, fun s hs => (hprops s hs).1⟩

/-- Witness for C9 at the Jobstmann game. -/
theorem c9_termination_witness :
    (∀ s ∈ ([3] : List Nat), s < jobGraph.n) ∧
    ∃ Q rest, solver jobTurn jobGraph (transpose jobGraph) [3] 1 = Except.ok Q ∧
      Q = [3] ++ rest ∧ rest.Nodup ∧ ∀ s ∈ rest, s ∉ ([3] : List Nat) :=
  ⟨by decide,
    c9_termination jobTurn jobGraph (transpose jobGraph) [3] 1 rfl (by decide)⟩

/-- Claim C10: every state of the returned sequence that is not a
target occurs at a position `q` and has an edge `G[s][t] = 1` to the
state at some strictly earlier position `p < q`: states are appended
only as predecessors of an already-discovered state. -/
theorem c10_witness_edge (turn : Nat → Nat) (G : NpMatrix) (final : List Nat)
    (i : Nat) (Q : List Nat) (hF : ∀ t ∈ final, t < G.n)
    (hok : solver turn G (transpose G) final i = Except.ok Q) :
    ∀ s ∈ Q, s ∉ final →
      ∃ p q, p < q ∧ q < Q.length ∧ Q.getD q 0 = s ∧
        G.entry s (Q.getD p 0) = 1 := by
  intro s hsQ hnf
  obtain ⟨p, q, h1, h2, h3, h4, _⟩ :=
    appended_has_edge turn G final i Q s hF hok hsQ hnf
  exact ⟨p, q, h1, h2, h3, h4⟩

/-- Witness for C10 at the Jobstmann game, state 2. -/
theorem c10_witness_edge_witness :
    (∀ t ∈ ([3] : List Nat), t < jobGraph.n) ∧
    ∃ p q, p < q ∧ q < ([3, 2, 1, 0] : List Nat).length ∧
      ([3, 2, 1, 0] : List Nat).getD q 0 = 2 ∧
      jobGraph.entry 2 (([3, 2, 1, 0] : List Nat).getD p 0) = 1 :=
  ⟨by decide,
    c10_witness_edge jobTurn jobGraph [3] 1 [3, 2, 1, 0] (by decide) rfl 2
      (by decide) (by decide)⟩
